import Mathlib

/-!
Verification of the chained lookup cache module (chaindict).

The module implements a composable multi-layer lookup cache.  We embed its
data model shallowly: Python None (the Absent sentinel) becomes Option.none,
values become integers, keys become a structure carrying the per-medium
offset map (the Python key.idx dict, a mapping from a store handle to an
integer offset), and each Python dict used as an exact-match cache or write
buffer becomes an insertion-ordered association list.  Exceptions raised by
the Python code (StopIteration from an exhausted iterator, KeyError, the
RuntimeError raised by mutating a dict while iterating it) are modelled by
Option.none results of the embedded operations.
-/

/-- Values stored in the chain.  The source stores numeric scalars; their
arithmetic is never used by the chain logic, so integers suffice. -/
abbrev V : Type := Int

/-- A key object: an identity together with its offset map key.idx, the
mapping from a backing-store handle (modelled as a natural number) to the
integer offset of the key inside that store. -/
structure Key where
  id : Nat
  idx : List (Nat × Nat)
deriving DecidableEq

/-- Lookup of key.idx for a handle: some offset when the handle is a member
of the offset map, none otherwise (the dict lookup guarded by membership). -/
def idxLookup (k : Key) (h : Nat) : Option Nat :=
  (k.idx.find? (fun p => decide (p.1 = h))).map (fun p => p.2)

/-- Python dict assignment d[k] = v on an association list: overwrite in
place when the key is present, append otherwise. -/
def dictSet {β : Type} (buf : List (Key × β)) (k : Key) (v : β) : List (Key × β) :=
  if buf.any (fun p => decide (p.1 = k)) then
    buf.map (fun p => if p.1 = k then (k, v) else p)
  else buf ++ [(k, v)]

/-- Python dict read d[k] guarded by membership: some when present. -/
def dictFind {β : Type} (buf : List (Key × β)) (k : Key) : Option β :=
  (buf.find? (fun p => decide (p.1 = k))).map (fun p => p.2)

/-- Comparison of index pairs by their second component, the comparison the
batch loader sorts with (sorted(enumerate(keys), key by the offset)). -/
def leSnd (a b : Nat × Nat) : Prop := a.2 ≤ b.2

instance : DecidableRel leSnd := fun a b => Nat.decLe a.2 b.2

instance : IsTotal (Nat × Nat) leSnd := ⟨fun a b => Nat.le_total a.2 b.2⟩

instance : IsTrans (Nat × Nat) leSnd := ⟨fun _ _ _ h1 h2 => Nat.le_trans h1 h2⟩

/-- Comparison of pairs by their first component, the comparison sync sorts
with (sorted(storable, key by the offset in the first slot)). -/
def leFst (β : Type) (a b : Nat × β) : Prop := a.1 ≤ b.1

instance (β : Type) : DecidableRel (leFst β) := fun a b => Nat.decLe a.1 b.1

instance (β : Type) : IsTotal (Nat × β) (leFst β) := ⟨fun a b => Nat.le_total a.1 b.1⟩

instance (β : Type) : IsTrans (Nat × β) (leFst β) := ⟨fun _ _ _ h1 h2 => Nat.le_trans h1 h2⟩

/-- Python enumerate, starting at index i. -/
def pyEnumFrom {α : Type} (i : Nat) : List α → List (Nat × α)
  | [] => []
  | a :: rest => (i, a) :: pyEnumFrom (i + 1) rest

/-- Python enumerate(l): the list of pairs (position, element). -/
def pyEnum {α : Type} (l : List α) : List (Nat × α) := pyEnumFrom 0 l

/-- The comprehension of apply_some_list: walk the request slots, consuming
one element of the replacement iterator at every non-None slot.  A none
result models the StopIteration error of an exhausted iterator. -/
def takeNexts {α β : Type} : List (Option α) → List β → Option (List (Option β))
  | [], _ => some []
  | none :: rest, rep => (takeNexts rest rep).map (fun out => none :: out)
  | some _ :: _, [] => none
  | some _ :: rest, r :: rep => (takeNexts rest rep).map (fun out => some r :: out)

/-- The comprehension of replace_none (and of the merge step of the generic
getitem): keep the non-None slots, fill every None slot from the iterator
over the replacement list.  A none result models StopIteration. -/
def replaceNone {β : Type} : List (Option β) → List (Option β) → Option (List (Option β))
  | [], _ => some []
  | some v :: rest, rep => (replaceNone rest rep).map (fun out => some v :: out)
  | none :: _, [] => none
  | none :: rest, r :: rep => (replaceNone rest rep).map (fun out => r :: out)

/-- Store load_list: when the offset batch is nonempty, sort the enumerated
offsets by offset value, hand the sorted offsets to the medium in one batch
call (modelled by the pointwise map med over that call list), and scatter
the returned values back into the original request positions.  Returns the
pair (the offset list given to the medium, the values in request order). -/
def loadList (med : Nat → V) (keys : List Nat) : List Nat × List V :=
  if 0 < keys.length then
    let keysSorted := List.insertionSort leSnd (pyEnum keys)
    let loadableKeys := keysSorted.map (fun p => p.2)
    let loadableIdxs := keysSorted.map (fun p => p.1)
    let valuesSorted := loadableKeys.map med
    (loadableKeys,
      (loadableIdxs.zip valuesSorted).foldl (fun r p => r.set p.1 p.2)
        (List.replicate keys.length 0))
  else ([], [])

/-- The state of a Store link: its write buffer (the dict the Store object
itself is), the handle of its backing store (self.store), the handle of the
derived content store (self.content_store, the object store of the key
class, in general a different handle), and max_save_buffer_size. -/
structure StoreState where
  buffer : List (Key × Option V)
  store : Nat
  content_store : Nat
  maxSaveBufferSize : Option Nat
deriving DecidableEq

/-- Store get_key: None for a None item, the offset under self.store when
the offset map has an entry for that handle, None otherwise. -/
def storeGetKey (st : StoreState) (item : Option Key) : Option Nat :=
  match item with
  | none => none
  | some k => idxLookup k st.store

/-- The storable selection made by Store sync: every buffered entry whose
key has a nonempty offset map containing the content-store handle, taken to
the pair (offset under content_store, buffered value). -/
def storable (st : StoreState) : List (Nat × Option V) :=
  st.buffer.filterMap (fun p =>
    if 0 < p.1.idx.length then
      match idxLookup p.1 st.content_store with
      | some o => some (o, p.2)
      | none => none
    else none)

/-- Store sync: when the storable selection is nonempty, sort it ascending
by offset, issue the one batch write (returned as some (offsets, values)),
and clear the buffer; otherwise no write, and the buffer is still cleared. -/
def storeSync (st : StoreState) : Option (List Nat × List (Option V)) × StoreState :=
  let stor := storable st
  if stor.length > 0 then
    let sorted := List.insertionSort (leFst (Option V)) stor
    (some (sorted.map (fun p => p.1), sorted.map (fun p => p.2)),
      { buffer := [], store := st.store, content_store := st.content_store,
        maxSaveBufferSize := st.maxSaveBufferSize : StoreState })
  else
    (none, { buffer := [], store := st.store, content_store := st.content_store,
             maxSaveBufferSize := st.maxSaveBufferSize })

/-- Store add_new: every zipped pair is written into the buffer dict with no
condition on the value or the offset map; afterwards, when a maximum buffer
size is configured and the buffer exceeds it, sync fires.  Returns the new
state and the medium write of that sync when it happened. -/
def storeAddNew (st : StoreState) (items : List Key) (values : List (Option V)) :
    StoreState × Option (List Nat × List (Option V)) :=
  let buf := (items.zip values).foldl (fun b p => dictSet b p.1 p.2) st.buffer
  let st1 : StoreState := { buffer := buf, store := st.store,
                            content_store := st.content_store,
                            maxSaveBufferSize := st.maxSaveBufferSize }
  match st.maxSaveBufferSize with
  | some m =>
    if buf.length > m then
      let r := storeSync st1
      (r.2, r.1)
    else (st1, none)
  | none => (st1, none)

/-- Store get_list: split the request into buffered slots and the missing
keys, resolve the offset of every missing key, batch-load the resolved
offsets, and merge.  A none result models an uncaught exception (possible
when the buffer holds a None value, because the split counts that slot as
present while its cached value still reads as None). -/
def storeGetList (med : Nat → V) (st : StoreState) (items : List Key) :
    Option (List (Option V)) :=
  let cached := items.map (fun it => (dictFind st.buffer it).getD none)
  let missing := items.filter (fun it => !(dictFind st.buffer it).isSome)
  let keys := missing.map (fun it => storeGetKey st (some it))
  match takeNexts keys (loadList med (keys.filterMap (fun x => x))).2 with
  | none => none
  | some replace => replaceNone cached replace

/-- ChainDict set of one pair: only a non-None value is written. -/
def chainSet (cache : List (Key × V)) (k : Key) (v : Option V) : List (Key × V) :=
  match v with
  | none => cache
  | some w => dictSet cache k w

/-- ChainDict set_list: pairwise set, skipping None values. -/
def setList (cache : List (Key × V)) (items : List Key) (values : List (Option V)) :
    List (Key × V) :=
  (items.zip values).foldl (fun c p => chainSet c p.1 p.2) cache

/-- LRUChainDict set: the guard of the link is in the module (only a
non-None value reaches the cache); the cache object itself is external, so
its insert operation is a parameter. -/
def lruSet {α : Type} (ins : Key → V → α → α) (c : α) (k : Key) (v : Option V) : α :=
  match v with
  | none => c
  | some w => ins k w c

/-- BufferedStore add_new: for every zipped pair, only when the value is
non-None and the key offset map is nonempty and contains the content-store
handle, the value is written both into the local cache and into the write
buffer of the wrapped Store (through the plain set, so no size-triggered
sync fires here). -/
def bufferedAddNew (cache : List (Key × V)) (st : StoreState) (items : List Key)
    (values : List (Option V)) : List (Key × V) × StoreState :=
  (items.zip values).foldl (fun acc p =>
    match p.2 with
    | none => acc
    | some v =>
      if 0 < p.1.idx.length ∧ (idxLookup p.1 st.content_store).isSome then
        (dictSet acc.1 p.1 v,
          { buffer := dictSet acc.2.buffer p.1 (some v), store := acc.2.store,
            content_store := acc.2.content_store,
            maxSaveBufferSize := acc.2.maxSaveBufferSize : StoreState })
      else acc) (cache, st)

/-- A chain of links, ordered primary first: each constructor carries the
state of one link variant together with its post (fallback) pointer.
dict is a plain ChainDict (an exact in-memory cache), fnc a Function link
(vestigial inherited dict storage, optional batch compute function), store
a Store link, expandMulti the duplicate-collapsing adapter. -/
inductive Chain where
  | dict (cache : List (Key × V)) (post : Option Chain)
  | fnc (cache : List (Key × V)) (f : Option (List Key → List (Option V))) (post : Option Chain)
  | store (st : StoreState) (post : Option Chain)
  | expandMulti (post : Option Chain)

/-- Assignment to the post attribute of a link. -/
def setPost : Chain → Option Chain → Chain
  | Chain.dict cache _, p => Chain.dict cache p
  | Chain.fnc cache f _, p => Chain.fnc cache f p
  | Chain.store st _, p => Chain.store st p
  | Chain.expandMulti _, p => Chain.expandMulti p

/-- The add operator of ChainDict: self.__add__(other) assigns other.post =
self and returns other, the mutated right operand. -/
def chainAdd (self other : Chain) : Chain := setPost other (some self)

/-- The local get_list of the three link variants that keep the inherited
generic getitem: dict lookup for ChainDict, the compute function (or an
all-None batch when it is unset) for Function, the buffered-plus-loaded
lookup for Store.  expandMulti overrides getitem and never uses its
inherited local resolution; its slot here is the lookup of its (always
empty) inherited dict. -/
def localGetList (med : Nat → V) : Chain → List Key → Option (List (Option V))
  | Chain.dict cache _, items => some (items.map (fun it => dictFind cache it))
  | Chain.fnc _ f _, items =>
    some (match f with
          | none => List.replicate items.length none
          | some f => f items)
  | Chain.store st _, items => storeGetList med st items
  | Chain.expandMulti _, items => some (items.map (fun _ => none))

/-- The batch lookup of a chain: the generic getitem for dict, Function and
Store links (local results, then the None slots forwarded to post, filled
back through add_new and merged), and the overridden getitem of
expandMulti (deduplicate, forward once, re-expand).  Returns the response
together with the chain as mutated by the fill-backs; none models an
uncaught exception. -/
def chainGet (med : Nat → V) : Chain → List Key → Option (List (Option V) × Chain)
  | Chain.dict cache p?, items =>
    let results := items.map (fun it => dictFind cache it)
    match p? with
    | none => some (results, Chain.dict cache none)
    | some p =>
      let nones := (items.zip results).filterMap
        (fun q => if q.2 = none then some q.1 else none)
      if nones.length = 0 then some (results, Chain.dict cache (some p))
      else
        match chainGet med p nones with
        | none => none
        | some (rep, p') =>
          match replaceNone results rep with
          | none => none
          | some out => some (out, Chain.dict (setList cache nones rep) (some p'))
  | Chain.fnc cache f p?, items =>
    let results := match f with
                   | none => List.replicate items.length none
                   | some f => f items
    match p? with
    | none => some (results, Chain.fnc cache f none)
    | some p =>
      let nones := (items.zip results).filterMap
        (fun q => if q.2 = none then some q.1 else none)
      if nones.length = 0 then some (results, Chain.fnc cache f (some p))
      else
        match chainGet med p nones with
        | none => none
        | some (rep, p') =>
          match replaceNone results rep with
          | none => none
          | some out => some (out, Chain.fnc (setList cache nones rep) f (some p'))
  | Chain.store st p?, items =>
    match storeGetList med st items with
    | none => none
    | some results =>
      match p? with
      | none => some (results, Chain.store st none)
      | some p =>
        let nones := (items.zip results).filterMap
          (fun q => if q.2 = none then some q.1 else none)
        if nones.length = 0 then some (results, Chain.store st (some p))
        else
          match chainGet med p nones with
          | none => none
          | some (rep, p') =>
            match replaceNone results rep with
            | none => none
            | some out => some (out, Chain.store (storeAddNew st nones rep).1 (some p'))
  | Chain.expandMulti p?, items =>
    match p? with
    | none =>
      if items.length = 0 then some ([], Chain.expandMulti none) else none
    | some p =>
      if items.length = 0 then some ([], Chain.expandMulti (some p))
      else
        let uniques := items.dedup
        match chainGet med p uniques with
        | none => none
        | some (rep, p') =>
          let mc := uniques.zip rep
          match items.mapM (fun it => dictFind mc it) with
          | none => none
          | some out => some (out, Chain.expandMulti (some p'))

/-- Well-formedness of a compute function slot: when a function is
configured, it honours the batch contract and answers one value per key. -/
def FnWF (f : Option (List Key → List (Option V))) : Prop :=
  match f with
  | none => True
  | some f => ∀ ks, (f ks).length = ks.length

/-- Well-formedness of a Store write buffer: it holds no None value.  Every
value that enters through set is non-None; only add_new on a Store that is
itself used above a fallback can break this. -/
def BufWF (st : StoreState) : Prop := ∀ p ∈ st.buffer, (p.2).isSome

/-- Well-formedness of a chain: compute functions honour the batch length
contract, store buffers hold no None value, and the duplicate-collapsing
adapter has a fallback attached. -/
def WFChain : Chain → Prop
  | Chain.dict _ none => True
  | Chain.dict _ (some p) => WFChain p
  | Chain.fnc _ f none => FnWF f
  | Chain.fnc _ f (some p) => FnWF f ∧ WFChain p
  | Chain.store st none => BufWF st
  | Chain.store st (some p) => BufWF st ∧ WFChain p
  | Chain.expandMulti none => False
  | Chain.expandMulti (some p) => WFChain p

/-- One reduction step of the MultiStore get aggregation: a slot stays only
when both the accumulated slot and the new result slot are non-None. -/
def multiCombineStep (out results : List (Option V)) : List (Option V) :=
  (out.zip results).map (fun p => if p.1.isNone ∨ p.2.isNone then none else p.1)

/-- MultiStore get_list over a reconciled destination set: with no
destinations, a batch of None of the request length; otherwise every
destination is queried for the whole batch (the query is the parameter q,
the sub-link lookup) and the per-destination results are reduced slot by
slot. -/
def multiGetList (cod : List Nat) (q : Nat → List (Option V)) (items : List Key) :
    List (Option V) :=
  match cod.map q with
  | [] => List.replicate items.length none
  | r :: rest => rest.foldl multiCombineStep r

/-- MultiStore update_nod_stores.  The source iterates the cod_stores dict
and deletes stale entries from it during the iteration; in Python 2 the
dict iterator raises RuntimeError (dictionary changed size during
iteration) on the step after any deletion, so the reconciliation aborts
whenever at least one tracked destination is no longer live, which the
model renders as none.  With no stale entry, every live destination not yet
tracked is added with a freshly constructed sub-link built by mk. -/
def updateNodStores {σ : Type} (mk : Nat → σ) (live : List Nat) (cod : List (Nat × σ)) :
    Option (List (Nat × σ)) :=
  if cod.any (fun p => !(live.contains p.1)) then none
  else some (cod ++ (live.filter (fun h => !(cod.any (fun p => p.1 == h)))).map
    (fun h => (h, mk h)))

/-- Whether a link keeps the inherited generic getitem of the base class
(every variant here except the duplicate-collapsing adapter, which
overrides it). -/
def usesInheritedGet : Chain → Prop
  | Chain.expandMulti _ => False
  | _ => True

/-- A concrete two-destination query used to witness the fan-out
aggregation: destination 1 reports Absent for the first slot, destination 2
resolves both slots. -/
def qC6 : Nat → List (Option V) :=
  fun d => if d = 1 then [none, some 3] else [some 4, some 3]

/-! ### Facts about enumerate -/

theorem pyEnumFrom_map_snd {α : Type} (i : Nat) (l : List α) :
    (pyEnumFrom i l).map Prod.snd = l := by
  induction l generalizing i with
  | nil => rfl
  | cons a rest ih => simp [pyEnumFrom, ih]

theorem pyEnumFrom_length {α : Type} (i : Nat) (l : List α) :
    (pyEnumFrom i l).length = l.length := by
  induction l generalizing i with
  | nil => rfl
  | cons a rest ih => simp [pyEnumFrom, ih]

theorem pyEnumFrom_mem {α : Type} (i j : Nat) (l : List α) (a : α)
    (h : l[j]? = some a) : (i + j, a) ∈ pyEnumFrom i l := by
  induction l generalizing i j with
  | nil => simp at h
  | cons b rest ih =>
    cases j with
    | zero => simp at h; simp [pyEnumFrom, h]
    | succ j =>
      simp only [List.getElem?_cons_succ] at h
      have := ih (i + 1) j h
      simp only [pyEnumFrom, List.mem_cons]
      right
      have harith : i + 1 + j = i + (j + 1) := by omega
      rw [← harith]
      exact this

theorem pyEnumFrom_fst_ge {α : Type} (i : Nat) (l : List α) :
    ∀ p ∈ pyEnumFrom i l, i ≤ p.1 := by
  induction l generalizing i with
  | nil => intro p hp; simp [pyEnumFrom] at hp
  | cons a rest ih =>
    intro p hp
    simp only [pyEnumFrom, List.mem_cons] at hp
    cases hp with
    | inl h => subst h; exact Nat.le_refl i
    | inr h => exact Nat.le_trans (Nat.le_succ i) (ih (i + 1) p h)

theorem pyEnumFrom_fst_nodup {α : Type} (i : Nat) (l : List α) :
    ((pyEnumFrom i l).map Prod.fst).Nodup := by
  induction l generalizing i with
  | nil => simp [pyEnumFrom]
  | cons a rest ih =>
    simp only [pyEnumFrom, List.map_cons, List.nodup_cons]
    constructor
    · intro hmem
      rcases List.mem_map.mp hmem with ⟨p, hp, hfst⟩
      have := pyEnumFrom_fst_ge (i + 1) rest p hp
      omega
    · exact ih (i + 1)

/-! ### Facts about the scatter fold used by load_list -/

theorem scatter_length (qs : List (Nat × V)) (r : List V) :
    (qs.foldl (fun r p => r.set p.1 p.2) r).length = r.length := by
  induction qs generalizing r with
  | nil => rfl
  | cons q rest ih => simp [List.foldl_cons, ih, List.length_set]

theorem scatter_not_mem (qs : List (Nat × V)) (r : List V) (j : Nat)
    (h : j ∉ qs.map Prod.fst) :
    (qs.foldl (fun r p => r.set p.1 p.2) r)[j]? = r[j]? := by
  induction qs generalizing r with
  | nil => rfl
  | cons q rest ih =>
    simp only [List.map_cons, List.mem_cons, not_or] at h
    simp only [List.foldl_cons]
    rw [ih _ h.2, List.getElem?_set_ne (fun he => h.1 he.symm)]

theorem scatter_mem (qs : List (Nat × V)) (r : List V) (j : Nat) (v : V)
    (hnd : (qs.map Prod.fst).Nodup) (hm : (j, v) ∈ qs) (hj : j < r.length) :
    (qs.foldl (fun r p => r.set p.1 p.2) r)[j]? = some v := by
  induction qs generalizing r with
  | nil => simp at hm
  | cons q rest ih =>
    simp only [List.map_cons, List.nodup_cons] at hnd
    simp only [List.foldl_cons]
    rcases List.mem_cons.mp hm with hq | hrest
    · subst hq
      rw [scatter_not_mem rest _ j hnd.1]
      exact List.getElem?_set_eq_of_lt v hj
    · exact ih (r.set q.1 q.2) hnd.2 hrest (by rw [List.length_set]; exact hj)

theorem zip_map_pair (ps : List (Nat × Nat)) (med : Nat → V) :
    (ps.map Prod.fst).zip ((ps.map Prod.snd).map med) =
      ps.map (fun p => (p.1, med p.2)) := by
  induction ps with
  | nil => rfl
  | cons p rest ih =>
    simp only [List.map_cons, List.zip_cons_cons, List.map_map] at ih ⊢
    rw [ih]

theorem loadList_result (med : Nat → V) (keys : List Nat) :
    (loadList med keys).2 = keys.map med := by
  by_cases hk : 0 < keys.length
  · simp only [loadList, if_pos hk, zip_map_pair]
    set ps := List.insertionSort leSnd (pyEnum keys) with hps
    have hperm : ps.Perm (pyEnum keys) := List.perm_insertionSort leSnd (pyEnum keys)
    set qs := ps.map (fun p => (p.1, med p.2)) with hqs
    have hqfst : qs.map Prod.fst = ps.map Prod.fst := by
      rw [hqs, List.map_map]; rfl
    have hnd : (qs.map Prod.fst).Nodup := by
      rw [hqfst]
      exact ((hperm.map Prod.fst).nodup_iff).mpr (pyEnumFrom_fst_nodup 0 keys)
    apply List.ext_getElem?
    intro j
    by_cases hj : j < keys.length
    · have hkj : keys[j]? = some keys[j] := List.getElem?_eq_getElem hj
      have hmem : (j, keys[j]) ∈ pyEnum keys := by
        have := pyEnumFrom_mem 0 j keys keys[j] hkj
        simpa using this
      have hmem2 : (j, keys[j]) ∈ ps := (hperm.mem_iff).mpr hmem
      have hmemq : (j, med keys[j]) ∈ qs := by
        rw [hqs]
        exact List.mem_map.mpr ⟨(j, keys[j]), hmem2, rfl⟩
      rw [scatter_mem qs _ j _ hnd hmemq
        (by rw [List.length_replicate]; exact hj)]
      rw [List.getElem?_map, hkj]
      rfl
    · rw [List.getElem?_eq_none
        (by rw [scatter_length, List.length_replicate]; omega)]
      rw [List.getElem?_eq_none (by rw [List.length_map]; omega)]
  · have : keys = [] := List.eq_nil_of_length_eq_zero (by omega)
    subst this
    rfl

theorem pyEnum_map_snd {α : Type} (l : List α) : (pyEnum l).map Prod.snd = l := by
  unfold pyEnum
  exact pyEnumFrom_map_snd 0 l

theorem loadList_call_sorted (med : Nat → V) (keys : List Nat) :
    List.Sorted (fun a b => a ≤ b) (loadList med keys).1 := by
  by_cases hk : 0 < keys.length
  · simp only [loadList, if_pos hk]
    have hsorted : List.Sorted leSnd (List.insertionSort leSnd (pyEnum keys)) :=
      List.sorted_insertionSort leSnd (pyEnum keys)
    exact (List.pairwise_map).mpr hsorted
  · have : keys = [] := List.eq_nil_of_length_eq_zero (by omega)
    subst this
    simp [loadList]

theorem loadList_call_perm (med : Nat → V) (keys : List Nat) :
    (loadList med keys).1.Perm keys := by
  by_cases hk : 0 < keys.length
  · simp only [loadList, if_pos hk]
    have hperm := (List.perm_insertionSort leSnd (pyEnum keys)).map Prod.snd
    rw [pyEnum_map_snd] at hperm
    exact hperm
  · have : keys = [] := List.eq_nil_of_length_eq_zero (by omega)
    subst this
    simp [loadList]

/-- C5: for every batch load by a PersistentLink, the resolved offsets are
sorted into ascending order before the single batch-load call to the medium
(the call list is an ascending permutation of the requested offsets), and
the returned values are remapped back into the original request positions
(slot i of the response answers the offset in slot i of the request); in
particular, for request offsets [5, 1, 3] the medium receives [1, 3, 5] and
the response lists the values of 5, 1 and 3 in that order. -/
theorem C5_loadList_sorted_call_request_order (med : Nat → V) (keys : List Nat) :
    List.Sorted (fun a b => a ≤ b) (loadList med keys).1 ∧
    (loadList med keys).1.Perm keys ∧
    (loadList med keys).2 = keys.map med ∧
    (loadList med [5, 1, 3]).1 = [1, 3, 5] ∧
    (loadList med [5, 1, 3]).2 = [med 5, med 1, med 3] :=
  ⟨loadList_call_sorted med keys, loadList_call_perm med keys, loadList_result med keys,
    rfl, by rw [loadList_result]; rfl⟩

/-! ### Facts about sync -/

theorem storeSync_clears (st : StoreState) : (storeSync st).2.buffer = [] := by
  simp only [storeSync]
  by_cases h : (storable st).length > 0
  · rw [if_pos h]
  · rw [if_neg h]

theorem storeSync_write_none_iff (st : StoreState) :
    (storeSync st).1 = none ↔ storable st = [] := by
  simp only [storeSync]
  by_cases h : (storable st).length > 0
  · rw [if_pos h]
    simp only [reduceCtorEq, false_iff]
    intro he
    rw [he] at h
    simp at h
  · rw [if_neg h]
    simp only [true_iff]
    exact List.eq_nil_of_length_eq_zero (by omega)

theorem storeSync_write_eq (st : StoreState) (h : storable st ≠ []) :
    (storeSync st).1 =
      some ((List.insertionSort (leFst (Option V)) (storable st)).map (fun p => p.1),
        (List.insertionSort (leFst (Option V)) (storable st)).map (fun p => p.2)) := by
  have hlen : (storable st).length > 0 := List.length_pos.mpr h
  simp only [storeSync]
  rw [if_pos hlen]

theorem insertionSort_fst_sorted (l : List (Nat × Option V)) :
    List.Sorted (fun a b => a ≤ b)
      ((List.insertionSort (leFst (Option V)) l).map (fun p => p.1)) := by
  have hsorted : List.Sorted (leFst (Option V)) (List.insertionSort (leFst (Option V)) l) :=
    List.sorted_insertionSort (leFst (Option V)) l
  exact (List.pairwise_map).mpr hsorted

theorem storable_mem (st : StoreState) (o : Nat) (v : Option V) :
    (o, v) ∈ storable st ↔
      ∃ k, (k, v) ∈ st.buffer ∧ 0 < k.idx.length ∧
        idxLookup k st.content_store = some o := by
  simp only [storable, List.mem_filterMap]
  constructor
  · rintro ⟨p, hp, heq⟩
    by_cases hlen : 0 < p.1.idx.length
    · rw [if_pos hlen] at heq
      cases hl : idxLookup p.1 st.content_store with
      | none => rw [hl] at heq; simp at heq
      | some o2 =>
        rw [hl] at heq
        simp only [Option.some_inj, Prod.mk.injEq] at heq
        exact ⟨p.1, by rw [← heq.2]; simpa using hp, hlen, by rw [hl, heq.1]⟩
    · rw [if_neg hlen] at heq; simp at heq
  · rintro ⟨k, hk, hlen, hl⟩
    exact ⟨(k, v), hk, by rw [if_pos hlen, hl]⟩

/-- C8: Store sync selects exactly the buffered entries whose key has a
resolved offset for the handle sync consults (the content-store slot of the
offset map), sorts them ascending by that offset, issues at most one batch
write holding their offsets and values in that ascending order, and then
clears the entire write buffer, dropping entries with no resolvable offset;
when no buffered entry is storable no medium write occurs and the buffer is
still cleared. -/
theorem C8_storeSync_sorted_write_then_clear (st : StoreState) :
    (storeSync st).2.buffer = [] ∧
    ((storeSync st).1 = none ↔ storable st = []) ∧
    (∀ o v, (o, v) ∈ storable st ↔
      ∃ k, (k, v) ∈ st.buffer ∧ 0 < k.idx.length ∧
        idxLookup k st.content_store = some o) ∧
    (storable st ≠ [] →
      (storeSync st).1 =
        some ((List.insertionSort (leFst (Option V)) (storable st)).map (fun p => p.1),
          (List.insertionSort (leFst (Option V)) (storable st)).map (fun p => p.2)) ∧
      List.Sorted (fun a b => a ≤ b)
        ((List.insertionSort (leFst (Option V)) (storable st)).map (fun p => p.1)) ∧
      (List.insertionSort (leFst (Option V)) (storable st)).Perm (storable st)) :=
  ⟨storeSync_clears st, storeSync_write_none_iff st,
    fun o v => storable_mem st o v,
    fun h => ⟨storeSync_write_eq st h, insertionSort_fst_sorted (storable st),
      List.perm_insertionSort (leFst (Option V)) (storable st)⟩⟩

/-! ### Facts about dict assignment -/

theorem find?_mapSet {β : Type} (buf : List (Key × β)) (k : Key) (v : β)
    (h : buf.any (fun p => decide (p.1 = k)) = true) :
    (buf.map (fun p => if p.1 = k then (k, v) else p)).find?
      (fun p => decide (p.1 = k)) = some (k, v) := by
  induction buf with
  | nil => simp at h
  | cons b rest ih =>
    by_cases hb : b.1 = k
    · simp [List.map_cons, List.find?_cons, hb]
    · simp only [List.any_cons, Bool.or_eq_true, decide_eq_true_eq] at h
      rcases h with h | h
      · exact absurd h hb
      · simp only [List.map_cons, if_neg hb, List.find?_cons, decide_eq_false hb]
        exact ih h

theorem dictFind_dictSet_self {β : Type} (buf : List (Key × β)) (k : Key) (v : β) :
    dictFind (dictSet buf k v) k = some v := by
  unfold dictSet dictFind
  by_cases h : buf.any (fun p => decide (p.1 = k)) = true
  · rw [if_pos h, find?_mapSet buf k v h]
    rfl
  · rw [if_neg h, List.find?_append]
    have hnone : buf.find? (fun p => decide (p.1 = k)) = none := by
      rw [List.find?_eq_none]
      intro x hx hpx
      exact h (List.any_eq_true.mpr ⟨x, hx, hpx⟩)
    rw [hnone]
    simp

theorem dictSet_key_set {β : Type} (buf : List (Key × β)) (k : Key) (v : β) (j : Key) :
    (∃ p ∈ dictSet buf k v, p.1 = j) ↔ (j = k ∨ ∃ p ∈ buf, p.1 = j) := by
  unfold dictSet
  by_cases h : buf.any (fun p => decide (p.1 = k)) = true
  · rw [if_pos h]
    constructor
    · rintro ⟨x, hx, hj⟩
      rcases List.mem_map.mp hx with ⟨y, hy, hfy⟩
      by_cases hyk : y.1 = k
      · rw [if_pos hyk] at hfy
        left
        rw [← hj, ← hfy]
      · rw [if_neg hyk] at hfy
        right
        exact ⟨y, hy, by rw [hfy, hj]⟩
    · rintro (hjk | ⟨p, hp, hj⟩)
      · rcases List.any_eq_true.mp h with ⟨y, hy, hyk⟩
        rw [decide_eq_true_eq] at hyk
        refine ⟨(k, v), List.mem_map.mpr ⟨y, hy, by rw [if_pos hyk]⟩, hjk.symm⟩
      · by_cases hpk : p.1 = k
        · refine ⟨(k, v), List.mem_map.mpr ⟨p, hp, by rw [if_pos hpk]⟩, by
            rw [← hj, hpk]⟩
        · exact ⟨p, List.mem_map.mpr ⟨p, hp, by rw [if_neg hpk]⟩, hj⟩
  · rw [if_neg h]
    constructor
    · rintro ⟨x, hx, hj⟩
      rcases List.mem_append.mp hx with hx | hx
      · exact Or.inr ⟨x, hx, hj⟩
      · simp only [List.mem_singleton] at hx
        left
        rw [← hj, hx]
    · rintro (hjk | ⟨p, hp, hj⟩)
      · exact ⟨(k, v), List.mem_append.mpr (Or.inr (List.mem_singleton.mpr rfl)), hjk.symm⟩
      · exact ⟨p, List.mem_append.mpr (Or.inl hp), hj⟩

theorem dictFind_isSome_iff {β : Type} (buf : List (Key × β)) (k : Key) :
    (dictFind buf k).isSome ↔ ∃ p ∈ buf, p.1 = k := by
  unfold dictFind
  cases hf : buf.find? (fun p => decide (p.1 = k)) with
  | none =>
    simp only [hf, Option.map_none', Option.isSome_none]
    constructor
    · intro h
      exact absurd h (by simp)
    · rintro ⟨p, hp, hpk⟩
      have := List.find?_eq_none.mp hf p hp
      simp [hpk] at this
  | some q =>
    simp only [hf, Option.map_some', Option.isSome_some]
    constructor
    · intro _
      refine ⟨q, List.mem_of_find?_eq_some hf, ?_⟩
      have := List.find?_some hf
      rwa [decide_eq_true_eq] at this
    · intro _
      trivial

theorem foldDictSet_mem {β : Type} (ps : List (Key × β)) (buf : List (Key × β)) (k : Key)
    (h : (∃ v, (k, v) ∈ ps) ∨ (dictFind buf k).isSome) :
    (dictFind (ps.foldl (fun b p => dictSet b p.1 p.2) buf) k).isSome := by
  induction ps generalizing buf with
  | nil =>
    rcases h with ⟨v, hv⟩ | h
    · simp at hv
    · exact h
  | cons q rest ih =>
    simp only [List.foldl_cons]
    apply ih
    rcases h with ⟨v, hv⟩ | h
    · rcases List.mem_cons.mp hv with hq | hrest
      · right
        rw [dictFind_isSome_iff]
        rw [dictSet_key_set]
        left
        rw [← hq]
      · exact Or.inl ⟨v, hrest⟩
    · right
      rw [dictFind_isSome_iff, dictSet_key_set]
      right
      exact (dictFind_isSome_iff buf k).mp h

/-- C2 counterexample: the key with the empty offset map has no resolved
offset for any handle, yet Store add_new still inserts its value into the
write buffer, refuting the claim that such values never enter the buffer. -/
theorem C2_counterexample_unresolved_key_buffered :
    storeGetKey ⟨[], 0, 1, none⟩ (some ⟨0, []⟩) = none ∧
    idxLookup ⟨0, []⟩ 1 = none ∧
    ((storeAddNew ⟨[], 0, 1, none⟩ [⟨0, []⟩] [some 5]).1).buffer =
      [(⟨0, []⟩, some 5)] :=
  ⟨rfl, rfl, rfl⟩

/-- C2 amended: Store add_new itself inserts every zipped pair into the
write buffer unconditionally (with no maximum buffer size configured, every
zipped key is present in the buffer afterwards, offset or not); the offset
gate the claim describes is implemented one layer up, in BufferedStore
add_new, which admits a pair into the cache and the write buffer only when
the value is non-Absent and the key offset map is nonempty and holds the
content-store handle, and drops it otherwise. -/
theorem C2_amended_store_addNew_unconditional (st : StoreState) (items : List Key)
    (values : List (Option V)) (cache : List (Key × V)) (k : Key) (v : V)
    (hmax : st.maxSaveBufferSize = none) :
    (∀ p ∈ items.zip values,
      (dictFind ((storeAddNew st items values).1).buffer p.1).isSome) ∧
    (¬(0 < k.idx.length ∧ (idxLookup k st.content_store).isSome) →
      bufferedAddNew cache st [k] [some v] = (cache, st)) ∧
    (0 < k.idx.length ∧ (idxLookup k st.content_store).isSome →
      bufferedAddNew cache st [k] [some v] =
        (dictSet cache k v,
          { buffer := dictSet st.buffer k (some v), store := st.store,
            content_store := st.content_store,
            maxSaveBufferSize := st.maxSaveBufferSize : StoreState })) := by
  refine ⟨?_, ?_, ?_⟩
  · intro p hp
    have hbuf : ((storeAddNew st items values).1).buffer =
        (items.zip values).foldl (fun b q => dictSet b q.1 q.2) st.buffer := by
      simp only [storeAddNew, hmax]
    rw [hbuf]
    exact foldDictSet_mem _ st.buffer p.1 (Or.inl ⟨p.2, by simpa using hp⟩)
  · intro hgate
    simp only [bufferedAddNew, List.zip_cons_cons, List.zip_nil_right, List.foldl_cons,
      List.foldl_nil, if_neg hgate]
  · intro hgate
    simp only [bufferedAddNew, List.zip_cons_cons, List.zip_nil_right, List.foldl_cons,
      List.foldl_nil, if_pos hgate]

/-- C2 witness: the amended statement applied to a concrete store state,
batch and gated key. -/
theorem C2_amended_witness :
    (∀ p ∈ [((⟨0, []⟩ : Key), (none : Option V)), (⟨1, [(1, 4)]⟩, some 2)],
      (dictFind ((storeAddNew ⟨[], 0, 1, none⟩ [⟨0, []⟩, ⟨1, [(1, 4)]⟩]
        [none, some 2]).1).buffer p.1).isSome) ∧
    (¬(0 < (⟨2, []⟩ : Key).idx.length ∧
        (idxLookup ⟨2, []⟩ (⟨[], 0, 1, none⟩ : StoreState).content_store).isSome) →
      bufferedAddNew [] ⟨[], 0, 1, none⟩ [⟨2, []⟩] [some 7] = ([], ⟨[], 0, 1, none⟩)) ∧
    (0 < (⟨2, []⟩ : Key).idx.length ∧
        (idxLookup ⟨2, []⟩ (⟨[], 0, 1, none⟩ : StoreState).content_store).isSome →
      bufferedAddNew [] ⟨[], 0, 1, none⟩ [⟨2, []⟩] [some 7] =
        (dictSet [] ⟨2, []⟩ 7,
          { buffer := dictSet [] ⟨2, []⟩ (some 7), store := 0, content_store := 1,
            maxSaveBufferSize := none : StoreState })) :=
  C2_amended_store_addNew_unconditional ⟨[], 0, 1, none⟩ [⟨0, []⟩, ⟨1, [(1, 4)]⟩]
    [none, some 2] [] ⟨2, []⟩ 7 rfl

/-- C3 counterexample: storing Absent through the Store fill-back hook does
create a write-buffer entry (holding Absent), and the subsequent batch get
for that key then raises (modelled none) instead of yielding Absent,
refuting the claim that storing Absent is a no-op on every link. -/
theorem C3_counterexample_absent_enters_store_buffer :
    ((storeAddNew ⟨[], 0, 1, none⟩ [⟨0, []⟩] [none]).1).buffer =
      [(⟨0, []⟩, none)] ∧
    storeGetList (fun _ => 0) ((storeAddNew ⟨[], 0, 1, none⟩ [⟨0, []⟩] [none]).1)
      [⟨0, []⟩] = none :=
  ⟨rfl, rfl⟩

/-- C3 amended: storing Absent through set is a no-op on every link
(ChainDict set, the LRU link set guard, and BufferedStore fill-back all drop
Absent, creating no cache or buffer entry), but the Store fill-back hook
add_new does create a write-buffer entry holding Absent, and a batch get
for that key on the Store afterwards raises an iterator error rather than
yielding Absent. -/
theorem C3_amended_absent_noop_except_store_addNew (cache c : List (Key × V))
    (st : StoreState) (k : Key) (ins : Key → V → List (Key × V) → List (Key × V))
    (hmax : st.maxSaveBufferSize = none) :
    chainSet cache k none = cache ∧
    lruSet ins c k none = c ∧
    bufferedAddNew cache st [k] [none] = (cache, st) ∧
    ((storeAddNew st [k] [none]).1).buffer = dictSet st.buffer k none ∧
    dictFind ((storeAddNew st [k] [none]).1).buffer k = some none := by
  refine ⟨rfl, rfl, rfl, ?_, ?_⟩
  · simp only [storeAddNew, hmax, List.zip_cons_cons, List.zip_nil_right,
      List.foldl_cons, List.foldl_nil]
  · have hbuf : ((storeAddNew st [k] [none]).1).buffer = dictSet st.buffer k none := by
      simp only [storeAddNew, hmax, List.zip_cons_cons, List.zip_nil_right,
        List.foldl_cons, List.foldl_nil]
    rw [hbuf]
    exact dictFind_dictSet_self st.buffer k none

/-- C3 witness: the amended statement applied to a concrete cache, store
state and key. -/
theorem C3_amended_witness :
    chainSet [] ⟨3, []⟩ none = [] ∧
    lruSet (fun k v c => (k, v) :: c) [] ⟨3, []⟩ none = [] ∧
    bufferedAddNew [] ⟨[], 0, 1, none⟩ [⟨3, []⟩] [none] = ([], ⟨[], 0, 1, none⟩) ∧
    ((storeAddNew ⟨[], 0, 1, none⟩ [⟨3, []⟩] [none]).1).buffer =
      dictSet [] ⟨3, []⟩ none ∧
    dictFind ((storeAddNew ⟨[], 0, 1, none⟩ [⟨3, []⟩] [none]).1).buffer ⟨3, []⟩ =
      some none :=
  C3_amended_absent_noop_except_store_addNew [] [] ⟨[], 0, 1, none⟩ ⟨3, []⟩
    (fun k v c => (k, v) :: c) rfl

/-- C10: the load path and the flush and fill-back paths of a Store consult
different offset-map slots.  For a key whose offset map holds only the
backing-store handle, get_key resolves the load offset yet sync selects
nothing (no flush, the buffer is still cleared with no write) and the
BufferedStore fill-back drops the value; for a key whose offset map holds
only the content-store handle, get_key resolves nothing (not loadable) yet
sync flushes its buffered value. -/
theorem C10_load_and_flush_consult_different_handles (st : StoreState)
    (k1 k2 : Key) (o1 o2 : Nat) (v1 v2 : Option V) (cache : List (Key × V)) (w : V)
    (hne : st.content_store ≠ st.store)
    (h1 : k1.idx = [(st.store, o1)]) (h2 : k2.idx = [(st.content_store, o2)]) :
    storeGetKey st (some k1) = some o1 ∧
    storable ⟨[(k1, v1)], st.store, st.content_store, st.maxSaveBufferSize⟩ = [] ∧
    (storeSync ⟨[(k1, v1)], st.store, st.content_store, st.maxSaveBufferSize⟩).1 =
      none ∧
    bufferedAddNew cache st [k1] [some w] = (cache, st) ∧
    storeGetKey st (some k2) = none ∧
    (storeSync ⟨[(k2, v2)], st.store, st.content_store, st.maxSaveBufferSize⟩).1 =
      some ([o2], [v2]) := by
  have hl1s : idxLookup k1 st.store = some o1 := by
    simp [idxLookup, h1]
  have hl1c : idxLookup k1 st.content_store = none := by
    simp only [idxLookup, h1, List.find?_cons]
    rw [decide_eq_false (fun he => hne he.symm)]
    rfl
  have hl2s : idxLookup k2 st.store = none := by
    simp only [idxLookup, h2, List.find?_cons]
    rw [decide_eq_false (fun he => hne he)]
    rfl
  have hl2c : idxLookup k2 st.content_store = some o2 := by
    simp [idxLookup, h2]
  have hstor1 : storable ⟨[(k1, v1)], st.store, st.content_store,
      st.maxSaveBufferSize⟩ = [] := by
    simp only [storable, List.filterMap_cons, List.filterMap_nil]
    rw [if_pos (by rw [h1]; simp)]
    simp only [hl1c]
  have hstor2 : storable ⟨[(k2, v2)], st.store, st.content_store,
      st.maxSaveBufferSize⟩ = [(o2, v2)] := by
    simp only [storable, List.filterMap_cons, List.filterMap_nil]
    rw [if_pos (by rw [h2]; simp)]
    simp only [hl2c]
  refine ⟨?_, hstor1, ?_, ?_, ?_, ?_⟩
  · simp [storeGetKey, hl1s]
  · rw [storeSync_write_none_iff]
    exact hstor1
  · simp only [bufferedAddNew, List.zip_cons_cons, List.zip_nil_right,
      List.foldl_cons, List.foldl_nil]
    rw [if_neg (by rw [hl1c]; simp)]
  · simp [storeGetKey, hl2s]
  · rw [storeSync_write_eq _ (by rw [hstor2]; simp), hstor2]
    rfl

/-- C10 witness: the statement applied to a concrete store state whose two
handles differ and to concrete keys holding one handle each. -/
theorem C10_witness :
    storeGetKey ⟨[], 0, 1, none⟩ (some ⟨1, [(0, 5)]⟩) = some 5 ∧
    storable ⟨[(⟨1, [(0, 5)]⟩, some 8)], 0, 1, none⟩ = [] ∧
    (storeSync ⟨[(⟨1, [(0, 5)]⟩, some 8)], 0, 1, none⟩).1 = none ∧
    bufferedAddNew [] ⟨[], 0, 1, none⟩ [⟨1, [(0, 5)]⟩] [some 3] =
      ([], ⟨[], 0, 1, none⟩) ∧
    storeGetKey ⟨[], 0, 1, none⟩ (some ⟨2, [(1, 7)]⟩) = none ∧
    (storeSync ⟨[(⟨2, [(1, 7)]⟩, some 9)], 0, 1, none⟩).1 = some ([7], [some 9]) :=
  C10_load_and_flush_consult_different_handles ⟨[], 0, 1, none⟩ ⟨1, [(0, 5)]⟩
    ⟨2, [(1, 7)]⟩ 5 7 (some 8) (some 9) [] 3 (by decide) rfl rfl

/-! ### Facts about chain composition -/

theorem nones_nil_of_all_isSome (items : List Key) (results : List (Option V))
    (h : ∀ r ∈ results, r.isSome) :
    (items.zip results).filterMap
      (fun q => if q.2 = none then some q.1 else none) = [] := by
  rw [List.filterMap_eq_nil_iff]
  intro q hq
  have hr : q.2 ∈ results := (List.of_mem_zip hq).2
  have := h q.2 hr
  rw [if_neg (by intro he; rw [he] at this; simp at this)]

/-- C1 counterexample: for the one-key links A (value 1) and B (value 2),
the composition A + B answers the batch [k] with B's value 2, not A's
value 1, and the composed link is the mutated right operand B (B.post = A),
not a new link whose primary behaviour is A with fallback B. -/
theorem C1_counterexample_right_operand_is_primary :
    chainAdd (Chain.dict [(⟨0, []⟩, 1)] none) (Chain.dict [(⟨0, []⟩, 2)] none) =
      Chain.dict [(⟨0, []⟩, 2)] (some (Chain.dict [(⟨0, []⟩, 1)] none)) ∧
    (chainGet (fun _ => 0) (chainAdd (Chain.dict [(⟨0, []⟩, 1)] none)
      (Chain.dict [(⟨0, []⟩, 2)] none)) [⟨0, []⟩]).map (fun r => r.1) =
      some [some 2] ∧
    (2 : V) ≠ 1 :=
  ⟨rfl, rfl, by decide⟩

/-- C1 amended: A + B assigns B.post = A and returns B itself, the mutated
right operand rather than a new link, so the right operand B is the primary
lookup and A is the fallback; building X = L1 + L2 + L3 therefore returns
L3 with fallback chain L2 then L1, and a key resolvable in the right
operand is answered from it. -/
theorem C1_amended_add_mutates_right_operand (med : Nat → V)
    (a b l1 l2 l3 : Chain) (cache : List (Key × V)) (post : Option Chain)
    (k : Key) (v : V) (hv : dictFind cache k = some v) :
    chainAdd a b = setPost b (some a) ∧
    chainAdd (chainAdd l1 l2) l3 = setPost l3 (some (setPost l2 (some l1))) ∧
    chainGet med (chainAdd a (Chain.dict cache post)) [k] =
      some ([some v], Chain.dict cache (some a)) := by
  refine ⟨rfl, rfl, ?_⟩
  simp only [chainAdd, setPost, chainGet, List.map_cons, List.map_nil, hv,
    List.zip_cons_cons, List.zip_nil_right, List.filterMap_cons]
  simp

/-- C1 witness: the amended statement applied to concrete links and a key
resolvable in the right operand. -/
theorem C1_amended_witness :
    chainAdd (Chain.dict [] none) (Chain.dict [(⟨0, []⟩, 7)] none) =
      setPost (Chain.dict [(⟨0, []⟩, 7)] none) (some (Chain.dict [] none)) ∧
    chainAdd (chainAdd (Chain.fnc [] none none) (Chain.dict [] none))
        (Chain.store ⟨[], 0, 1, none⟩ none) =
      setPost (Chain.store ⟨[], 0, 1, none⟩ none)
        (some (setPost (Chain.dict [] none) (some (Chain.fnc [] none none)))) ∧
    chainGet (fun _ => 0) (chainAdd (Chain.dict [] none)
        (Chain.dict [(⟨0, []⟩, 7)] none)) [⟨0, []⟩] =
      some ([some 7], Chain.dict [(⟨0, []⟩, 7)] (some (Chain.dict [] none))) :=
  C1_amended_add_mutates_right_operand (fun _ => 0) (Chain.dict [] none)
    (Chain.dict [(⟨0, []⟩, 7)] none) (Chain.fnc [] none none) (Chain.dict [] none)
    (Chain.store ⟨[], 0, 1, none⟩ none) [(⟨0, []⟩, 7)] none ⟨0, []⟩ 7 rfl

/-- C7 counterexample: with A holding 5 for the key and B holding 9, the
batch [k] is fully resolvable in A, yet get on A + B answers B's local
value 9, not the locally resolved value 5 of A: under the composition
operator of the source the left operand A is the fallback, so a batch
resolvable in A does not keep the chain from consulting B. -/
theorem C7_counterexample_left_operand_not_primary :
    dictFind [((⟨1, []⟩ : Key), (5 : V))] ⟨1, []⟩ = some 5 ∧
    (chainGet (fun _ => 0) (chainAdd (Chain.dict [(⟨1, []⟩, 5)] none)
      (Chain.dict [(⟨1, []⟩, 9)] none)) [⟨1, []⟩]).map (fun r => r.1) =
      some [some 9] ∧
    some [some (9 : V)] ≠ some [some 5] :=
  ⟨rfl, rfl, by decide⟩

/-- C7 amended: in a composition built by the add operator the right
operand is the primary link; for every batch whose keys are all locally
resolvable in that primary (every local result non-Absent), get returns
exactly the local results and the fallback is never queried: the response
and the final state are the same for every fallback a, and no fill-back
mutates either operand. -/
theorem C7_amended_resolvable_batch_skips_fallback (med : Nat → V) (a b : Chain)
    (items : List Key) (results : List (Option V))
    (hb : usesInheritedGet b)
    (hloc : localGetList med b items = some results)
    (hall : ∀ r ∈ results, r.isSome) :
    chainGet med (chainAdd a b) items = some (results, chainAdd a b) := by
  cases b with
  | dict cache p0 =>
    simp only [localGetList, Option.some_inj] at hloc
    subst hloc
    simp only [chainAdd, setPost, chainGet]
    rw [nones_nil_of_all_isSome items _ hall]
    simp
  | fnc cache f p0 =>
    simp only [localGetList, Option.some_inj] at hloc
    simp only [chainAdd, setPost, chainGet, hloc]
    rw [nones_nil_of_all_isSome items _ hall]
    simp
  | store st p0 =>
    simp only [localGetList] at hloc
    simp only [chainAdd, setPost, chainGet, hloc]
    rw [nones_nil_of_all_isSome items _ hall]
    simp
  | expandMulti p0 =>
    simp [usesInheritedGet] at hb

/-- C7 witness: the amended statement applied to a concrete primary, a
concrete fallback and a batch resolvable in the primary. -/
theorem C7_amended_witness :
    chainGet (fun _ => 0) (chainAdd (Chain.dict [] none)
        (Chain.dict [(⟨4, []⟩, 6)] none)) [⟨4, []⟩] =
      some ([some 6], chainAdd (Chain.dict [] none)
        (Chain.dict [(⟨4, []⟩, 6)] none)) :=
  C7_amended_resolvable_batch_skips_fallback (fun _ => 0) (Chain.dict [] none)
    (Chain.dict [(⟨4, []⟩, 6)] none) [⟨4, []⟩] [some 6] trivial rfl
    (by intro r hr; simp at hr; rw [hr]; rfl)

/-- C9: reconciling the destination set when a tracked destination is no
longer live.  The source deletes stale entries from the cod_stores dict
inside the iteration over that same dict, which the Python 2 dict iterator
answers with RuntimeError on its next step, so the reconciliation aborts
(modelled none) whenever a removal is needed: here the tracked destination
1 is stale and the live destination 2 is new, and instead of removing 1 and
adding 2 the update raises.  A pure-addition update, by contrast, completes
and appends the freshly constructed sub-link. -/
theorem C9_update_raises_on_removal :
    updateNodStores (fun h => h * 10) [2] [(1, 10)] = none ∧
    updateNodStores (fun h => h * 10) [1, 2] [(1, 10)] =
      some [(1, 10), (2, 20)] :=
  ⟨rfl, rfl⟩

/-! ### Facts about the fan-out aggregation -/

theorem getElem?_zip_pair {α β : Type} (l1 : List α) (l2 : List β) (i : Nat) :
    (l1.zip l2)[i]? = match l1[i]?, l2[i]? with
      | some a, some b => some (a, b)
      | _, _ => none := by
  induction l1 generalizing l2 i with
  | nil => simp
  | cons a rest ih =>
    cases l2 with
    | nil => simp
    | cons b rest2 =>
      cases i with
      | zero => simp [List.zip_cons_cons]
      | succ i => simpa [List.zip_cons_cons] using ih rest2 i

theorem multiCombineStep_getElem (out results : List (Option V)) (i : Nat)
    (a b : Option V) (ha : out[i]? = some a) (hb : results[i]? = some b) :
    (multiCombineStep out results)[i]? =
      some (if a.isNone ∨ b.isNone then none else a) := by
  unfold multiCombineStep
  rw [List.getElem?_map, getElem?_zip_pair, ha, hb]
  rfl

theorem multiCombineStep_length (out results : List (Option V))
    (h : results.length = out.length) :
    (multiCombineStep out results).length = out.length := by
  unfold multiCombineStep
  rw [List.length_map, List.length_zip, h, Nat.min_self]

theorem multiFold_length (rs : List (List (Option V))) (r : List (Option V))
    (h : ∀ s ∈ rs, s.length = r.length) :
    (rs.foldl multiCombineStep r).length = r.length := by
  induction rs generalizing r with
  | nil => rfl
  | cons s rest ih =>
    simp only [List.foldl_cons]
    have hs : (multiCombineStep r s).length = r.length :=
      multiCombineStep_length r s (h s (List.mem_cons_self s rest))
    rw [ih (multiCombineStep r s) (fun t ht => by
      rw [hs]; exact h t (List.mem_cons_of_mem s ht)), hs]

theorem multiFold_getElem (rs : List (List (Option V))) (r : List (Option V))
    (i : Nat) (h : ∀ s ∈ rs, s.length = r.length) (hi : i < r.length) :
    (rs.foldl multiCombineStep r)[i]? =
      if r[i]? = some none ∨ ∃ s ∈ rs, s[i]? = some none then some none
      else r[i]? := by
  induction rs generalizing r with
  | nil =>
    simp only [List.foldl_nil, List.not_mem_nil, false_and, exists_false, or_false]
    by_cases hc : r[i]? = some none
    · rw [if_pos hc, hc]
    · rw [if_neg hc]
  | cons s rest ih =>
    obtain ⟨a, ha⟩ : ∃ a, r[i]? = some a :=
      ⟨r[i], List.getElem?_eq_getElem hi⟩
    have hbs : i < s.length := by rw [h s (List.mem_cons_self s rest)]; exact hi
    obtain ⟨b, hb⟩ : ∃ b, s[i]? = some b :=
      ⟨s[i], List.getElem?_eq_getElem hbs⟩
    have hslen : (multiCombineStep r s).length = r.length :=
      multiCombineStep_length r s (h s (List.mem_cons_self s rest))
    have hstep := multiCombineStep_getElem r s i a b ha hb
    simp only [List.foldl_cons]
    rw [ih (multiCombineStep r s)
      (fun t ht => by rw [hslen]; exact h t (List.mem_cons_of_mem s ht))
      (by rw [hslen]; exact hi)]
    rw [hstep]
    by_cases hA : a.isNone ∨ b.isNone
    · rw [if_pos hA]
      rw [if_pos (by simp)]
      rw [if_pos ?side]
      case side =>
        rcases hA with hA | hA
        · left
          rw [ha, Option.isNone_iff_eq_none.mp hA]
        · right
          exact ⟨s, List.mem_cons_self s rest, by rw [hb, Option.isNone_iff_eq_none.mp hA]⟩
    · rw [if_neg hA]
      push_neg at hA
      have hAa : a ≠ none := fun he => hA.1 (by rw [he]; rfl)
      have hAb : b ≠ none := fun he => hA.2 (by rw [he]; rfl)
      by_cases hrest : ∃ t ∈ rest, t[i]? = some none
      · rw [if_pos (Or.inr hrest)]
        rw [if_pos (Or.inr (by
          rcases hrest with ⟨t, ht, hv⟩
          exact ⟨t, List.mem_cons_of_mem s ht, hv⟩))]
      · rw [if_neg (by
          rintro (hc | hc)
          · exact hAa (Option.some.inj hc)
          · exact hrest hc)]
        rw [if_neg (by
          rintro (hc | hc)
          · rw [ha] at hc
            exact hAa (Option.some.inj hc)
          · rcases hc with ⟨t, ht, hv⟩
            rcases List.mem_cons.mp ht with he | ht2
            · subst he
              rw [hb] at hv
              exact hAb (Option.some.inj hv)
            · exact hrest ⟨t, ht2, hv⟩), ha]

/-- C6: the fan-out batch get with a reconciled destination set: with zero
registered destinations the response is a batch of Absent of the request
length; otherwise the response has the request length, a slot is non-Absent
only if every registered destination reports non-Absent there (one Absent
report makes the aggregate Absent), and when every destination resolves a
slot the response holds the value reported by one of the destinations. -/
theorem C6_multiGetList_conjunctive_aggregation (cod : List Nat)
    (q : Nat → List (Option V)) (items : List Key) (i : Nat)
    (hq : ∀ d, (q d).length = items.length) :
    (cod = [] → multiGetList cod q items = List.replicate items.length none) ∧
    (multiGetList cod q items).length = items.length ∧
    (i < items.length →
      ((∃ v : V, (multiGetList cod q items)[i]? = some (some v)) →
        ∀ d ∈ cod, ∃ w : V, (q d)[i]? = some (some w)) ∧
      ((∀ d ∈ cod, ∃ w : V, (q d)[i]? = some (some w)) → cod ≠ [] →
        ∃ d ∈ cod, (multiGetList cod q items)[i]? = (q d)[i]?)) := by
  cases cod with
  | nil =>
    refine ⟨fun _ => rfl, by simp [multiGetList], fun hi => ⟨?_, ?_⟩⟩
    · intro _ d hd
      simp at hd
    · intro _ hne
      exact absurd rfl hne
  | cons d0 cods =>
    have hmap : (d0 :: cods).map q = q d0 :: cods.map q := rfl
    have hlen0 : ∀ s ∈ cods.map q, s.length = (q d0).length := by
      intro s hs
      rcases List.mem_map.mp hs with ⟨d, _, hdq⟩
      rw [← hdq, hq d, hq d0]
    have hmgl : multiGetList (d0 :: cods) q items =
        (cods.map q).foldl multiCombineStep (q d0) := by
      simp only [multiGetList, hmap]
    refine ⟨fun hc => by simp at hc, ?_, fun hi => ⟨?_, ?_⟩⟩
    · rw [hmgl, multiFold_length (cods.map q) (q d0) hlen0, hq d0]
    · rintro ⟨v, hv⟩ d hd
      have hi0 : i < (q d0).length := by rw [hq d0]; exact hi
      rw [hmgl, multiFold_getElem (cods.map q) (q d0) i hlen0 hi0] at hv
      by_cases hcond : (q d0)[i]? = some none ∨ ∃ s ∈ cods.map q, s[i]? = some none
      · rw [if_pos hcond] at hv
        exact absurd (Option.some.inj hv) (by simp)
      · rw [if_neg hcond] at hv
        push_neg at hcond
        rcases List.mem_cons.mp hd with he | hd2
        · subst he
          obtain ⟨b, hb⟩ : ∃ b, (q d)[i]? = some b :=
            ⟨(q d).get ⟨i, hi0⟩, by rw [List.getElem?_eq_getElem hi0]; rfl⟩
          cases b with
          | none => exact absurd hb hcond.1
          | some w => exact ⟨w, hb⟩
        · have hid : i < (q d).length := by rw [hq d]; exact hi
          obtain ⟨b, hb⟩ : ∃ b, (q d)[i]? = some b :=
            ⟨(q d).get ⟨i, hid⟩, by rw [List.getElem?_eq_getElem hid]; rfl⟩
          cases b with
          | none =>
            exact absurd hb (hcond.2 (q d) (List.mem_map.mpr ⟨d, hd2, rfl⟩))
          | some w => exact ⟨w, hb⟩
    · intro hall _
      refine ⟨d0, List.mem_cons_self d0 cods, ?_⟩
      have hi0 : i < (q d0).length := by rw [hq d0]; exact hi
      rw [hmgl, multiFold_getElem (cods.map q) (q d0) i hlen0 hi0]
      rw [if_neg ?hc]
      case hc =>
        rintro (hc | ⟨s, hs, hc⟩)
        · rcases hall d0 (List.mem_cons_self d0 cods) with ⟨w, hw⟩
          rw [hw] at hc
          exact absurd (Option.some.inj hc) (by simp)
        · rcases List.mem_map.mp hs with ⟨d, hd, hdq⟩
          rcases hall d (List.mem_cons_of_mem d0 hd) with ⟨w, hw⟩
          rw [← hdq, hw] at hc
          exact absurd (Option.some.inj hc) (by simp)

/-- C6 witness: the statement applied to two concrete destinations where
one reports Absent for the first slot and both resolve the second. -/
theorem C6_witness :
    (([1, 2] : List Nat) = [] →
      multiGetList [1, 2] qC6 [⟨0, []⟩, ⟨1, []⟩] =
        List.replicate ([(⟨0, []⟩ : Key), ⟨1, []⟩]).length none) ∧
    (multiGetList [1, 2] qC6 [⟨0, []⟩, ⟨1, []⟩]).length =
      ([(⟨0, []⟩ : Key), ⟨1, []⟩]).length ∧
    (0 < ([(⟨0, []⟩ : Key), ⟨1, []⟩]).length →
      ((∃ v : V, (multiGetList [1, 2] qC6 [⟨0, []⟩, ⟨1, []⟩])[0]? = some (some v)) →
        ∀ d ∈ [1, 2], ∃ w : V, (qC6 d)[0]? = some (some w)) ∧
      ((∀ d ∈ [1, 2], ∃ w : V, (qC6 d)[0]? = some (some w)) →
          ([1, 2] : List Nat) ≠ [] →
        ∃ d ∈ [1, 2], (multiGetList [1, 2] qC6 [⟨0, []⟩, ⟨1, []⟩])[0]? = (qC6 d)[0]?)) :=
  C6_multiGetList_conjunctive_aggregation [1, 2] qC6 [⟨0, []⟩, ⟨1, []⟩] 0
    (by intro d; by_cases hd : d = 1 <;> simp [qC6, hd])

/-! ### Success and length of the merge combinators -/

theorem replaceNone_some (results rep : List (Option V))
    (h : results.countP (fun o => o.isNone) ≤ rep.length) :
    ∃ out, replaceNone results rep = some out ∧ out.length = results.length := by
  induction results generalizing rep with
  | nil => exact ⟨[], rfl, rfl⟩
  | cons r rest ih =>
    cases r with
    | some v =>
      have h2 : rest.countP (fun o => o.isNone) ≤ rep.length := by
        simp only [List.countP_cons, Option.isNone_some] at h
        simpa using h
      rcases ih rep h2 with ⟨out, ho, hl⟩
      exact ⟨some v :: out, by simp [replaceNone, ho], by simp [hl]⟩
    | none =>
      cases rep with
      | nil =>
        simp [List.countP_cons] at h
      | cons r2 rep2 =>
        have h2 : rest.countP (fun o => o.isNone) ≤ rep2.length := by
          simp [List.countP_cons] at h
          omega
        rcases ih rep2 h2 with ⟨out, ho, hl⟩
        exact ⟨r2 :: out, by simp [replaceNone, ho], by simp [hl]⟩

theorem takeNexts_some (keys : List (Option Nat)) (rep : List V)
    (h : keys.countP (fun o => o.isSome) ≤ rep.length) :
    ∃ out, takeNexts keys rep = some out ∧ out.length = keys.length := by
  induction keys generalizing rep with
  | nil => exact ⟨[], rfl, rfl⟩
  | cons r rest ih =>
    cases r with
    | none =>
      have h2 : rest.countP (fun o => o.isSome) ≤ rep.length := by
        simp only [List.countP_cons, Option.isSome_none] at h
        simpa using h
      rcases ih rep h2 with ⟨out, ho, hl⟩
      exact ⟨none :: out, by simp [takeNexts, ho], by simp [hl]⟩
    | some a =>
      cases rep with
      | nil =>
        simp [List.countP_cons] at h
      | cons r2 rep2 =>
        have h2 : rest.countP (fun o => o.isSome) ≤ rep2.length := by
          simp [List.countP_cons] at h
          omega
        rcases ih rep2 h2 with ⟨out, ho, hl⟩
        exact ⟨some r2 :: out, by simp [takeNexts, ho], by simp [hl]⟩

theorem nones_length_eq (items : List Key) (results : List (Option V))
    (h : results.length = items.length) :
    ((items.zip results).filterMap
      (fun q => if q.2 = none then some q.1 else none)).length =
      results.countP (fun o => o.isNone) := by
  induction items generalizing results with
  | nil =>
    cases results with
    | nil => rfl
    | cons r rs => simp at h
  | cons it rest ih =>
    cases results with
    | nil => simp at h
    | cons r rs =>
      have hlen : rs.length = rest.length := by simpa using h
      simp only [List.zip_cons_cons, List.filterMap_cons, List.countP_cons]
      cases r with
      | none => simp [ih rs hlen]
      | some v => simp [ih rs hlen]

theorem filterMap_id_length (keys : List (Option Nat)) :
    (keys.filterMap (fun x => x)).length = keys.countP (fun o => o.isSome) := by
  induction keys with
  | nil => rfl
  | cons a rest ih =>
    cases a <;> simp [List.filterMap_cons, List.countP_cons, ih]

theorem loadList_length (med : Nat → V) (ks : List Nat) :
    (loadList med ks).2.length = ks.length := by
  by_cases hk : 0 < ks.length
  · simp only [loadList, if_pos hk]
    rw [scatter_length, List.length_replicate]
  · simp only [loadList, if_neg hk]
    simp only [List.length_nil]
    omega

theorem dictFind_mem_val {β : Type} (buf : List (Key × β)) (k : Key) (w : β)
    (h : dictFind buf k = some w) : ∃ p ∈ buf, p.2 = w := by
  unfold dictFind at h
  cases hf : buf.find? (fun p => decide (p.1 = k)) with
  | none => rw [hf] at h; simp at h
  | some q =>
    rw [hf] at h
    simp only [Option.map_some', Option.some_inj] at h
    exact ⟨q, List.mem_of_find?_eq_some hf, h⟩

theorem countP_pointwise {α : Type} (p q : α → Bool) (l : List α)
    (h : ∀ x ∈ l, p x = q x) : l.countP p = l.countP q := by
  induction l with
  | nil => rfl
  | cons a rest ih =>
    simp only [List.countP_cons]
    rw [h a (List.mem_cons_self a rest),
      ih (fun x hx => h x (List.mem_cons_of_mem a hx))]

theorem storeGetList_some (med : Nat → V) (st : StoreState) (items : List Key)
    (hwf : BufWF st) :
    ∃ res, storeGetList med st items = some res ∧ res.length = items.length := by
  simp only [storeGetList]
  have hload : (loadList med
      (((items.filter (fun it => !(dictFind st.buffer it).isSome)).map
        (fun it => storeGetKey st (some it))).filterMap (fun x => x))).2.length =
      ((items.filter (fun it => !(dictFind st.buffer it).isSome)).map
        (fun it => storeGetKey st (some it))).countP (fun o => o.isSome) := by
    rw [loadList_length, filterMap_id_length]
  rcases takeNexts_some _ _ (le_of_eq hload.symm) with ⟨replace, hrep, hreplen⟩
  rw [hrep]
  have hcount : (items.map
      (fun it => (dictFind st.buffer it).getD none)).countP (fun o => o.isNone) =
      (items.filter (fun it => !(dictFind st.buffer it).isSome)).length := by
    rw [List.countP_map, ← List.countP_eq_length_filter]
    apply countP_pointwise
    intro it _
    cases hf : dictFind st.buffer it with
    | none => simp [Function.comp, hf]
    | some w =>
      rcases dictFind_mem_val st.buffer it w hf with ⟨p, hp, hw⟩
      have hsome : w.isSome := by rw [← hw]; exact hwf p hp
      rcases Option.isSome_iff_exists.mp hsome with ⟨x, hx⟩
      simp [Function.comp, hf, hx]
  rcases replaceNone_some (items.map (fun it => (dictFind st.buffer it).getD none))
      replace (by
        rw [hcount, hreplen, List.length_map]) with ⟨out, ho, hl⟩
  refine ⟨out, ?_, ?_⟩
  · simp only [ho]
  · rw [hl, List.length_map]

theorem mapM_isSome_length {α β : Type} (f : α → Option β) (l : List α)
    (h : ∀ x ∈ l, (f x).isSome) :
    ∃ out, l.mapM f = some out ∧ out.length = l.length := by
  induction l with
  | nil => exact ⟨[], rfl, rfl⟩
  | cons a rest ih =>
    rcases Option.isSome_iff_exists.mp (h a (List.mem_cons_self a rest)) with ⟨b, hb⟩
    rcases ih (fun x hx => h x (List.mem_cons_of_mem a hx)) with ⟨out, ho, hl⟩
    refine ⟨b :: out, ?_, by simp [hl]⟩
    rw [List.mapM_cons, hb, ho]
    rfl

theorem dictFind_zip_isSome (l1 : List Key) (l2 : List (Option V)) (k : Key)
    (hk : k ∈ l1) (hlen : l2.length = l1.length) :
    (dictFind (l1.zip l2) k).isSome := by
  rw [dictFind_isSome_iff]
  have hmem : k ∈ (l1.zip l2).map Prod.fst := by
    rw [List.map_fst_zip l1 l2 (by omega)]
    exact hk
  rcases List.mem_map.mp hmem with ⟨p, hp, hpk⟩
  exact ⟨p, hp, hpk⟩

theorem merge_branch_some (items : List Key) (results rep : List (Option V))
    (hreslen : results.length = items.length)
    (hreplen : rep.length = ((items.zip results).filterMap
      (fun q => if q.2 = none then some q.1 else none)).length) :
    ∃ out, replaceNone results rep = some out ∧ out.length = items.length := by
  have hcnt : results.countP (fun o => o.isNone) ≤ rep.length := by
    rw [hreplen, nones_length_eq items results hreslen]
  rcases replaceNone_some results rep hcnt with ⟨out, ho, hl⟩
  exact ⟨out, ho, by rw [hl, hreslen]⟩

/-- C4 skeleton: every well-formed chain answers every batch with a
response of the batch length. -/
theorem chainGet_some_length (med : Nat → V) :
    (c : Chain) → (items : List Key) → WFChain c →
    ∃ out c2, chainGet med c items = some (out, c2) ∧ out.length = items.length
  | Chain.dict cache none, items, _ => by
    refine ⟨items.map (fun it => dictFind cache it), Chain.dict cache none, ?_,
      List.length_map items _⟩
    simp only [chainGet]
  | Chain.dict cache (some p), items, h => by
    have hwfp : WFChain p := h
    by_cases hn : ((items.zip (items.map (fun it => dictFind cache it))).filterMap
        (fun q => if q.2 = none then some q.1 else none)).length = 0
    · refine ⟨items.map (fun it => dictFind cache it), Chain.dict cache (some p), ?_,
        List.length_map items _⟩
      simp only [chainGet]
      rw [if_pos hn]
    · have hrec := chainGet_some_length med p
        ((items.zip (items.map (fun it => dictFind cache it))).filterMap
          (fun q => if q.2 = none then some q.1 else none)) hwfp
      obtain ⟨rep, p2, hrep, hreplen⟩ := hrec
      rcases merge_branch_some items (items.map (fun it => dictFind cache it)) rep
        (List.length_map items _) (by rw [hreplen]) with ⟨out, ho, hl⟩
      refine ⟨out, Chain.dict (setList cache
        ((items.zip (items.map (fun it => dictFind cache it))).filterMap
          (fun q => if q.2 = none then some q.1 else none)) rep) (some p2), ?_, hl⟩
      simp only [chainGet]
      rw [if_neg hn]
      simp only [hrep]
      rw [ho]
  | Chain.fnc cache none none, items, _ => by
    refine ⟨List.replicate items.length none, Chain.fnc cache none none, ?_,
      List.length_replicate items.length none⟩
    simp only [chainGet]
  | Chain.fnc cache (some f) none, items, h => by
    refine ⟨f items, Chain.fnc cache (some f) none, ?_, h items⟩
    simp only [chainGet]
  | Chain.fnc cache none (some p), items, h => by
    have hwfp : WFChain p := h.2
    by_cases hn : ((items.zip (List.replicate items.length (none : Option V))).filterMap
        (fun q => if q.2 = none then some q.1 else none)).length = 0
    · refine ⟨List.replicate items.length none, Chain.fnc cache none (some p), ?_,
        List.length_replicate items.length none⟩
      simp only [chainGet]
      rw [if_pos hn]
    · have hrec := chainGet_some_length med p
        ((items.zip (List.replicate items.length (none : Option V))).filterMap
          (fun q => if q.2 = none then some q.1 else none)) hwfp
      obtain ⟨rep, p2, hrep, hreplen⟩ := hrec
      rcases merge_branch_some items (List.replicate items.length none) rep
        (List.length_replicate items.length none) (by rw [hreplen]) with ⟨out, ho, hl⟩
      refine ⟨out, Chain.fnc (setList cache
        ((items.zip (List.replicate items.length (none : Option V))).filterMap
          (fun q => if q.2 = none then some q.1 else none)) rep) none (some p2), ?_, hl⟩
      simp only [chainGet]
      rw [if_neg hn]
      simp only [hrep]
      rw [ho]
  | Chain.fnc cache (some f) (some p), items, h => by
    have hwfp : WFChain p := h.2
    have hflen : (f items).length = items.length := h.1 items
    by_cases hn : ((items.zip (f items)).filterMap
        (fun q => if q.2 = none then some q.1 else none)).length = 0
    · refine ⟨f items, Chain.fnc cache (some f) (some p), ?_, hflen⟩
      simp only [chainGet]
      rw [if_pos hn]
    · have hrec := chainGet_some_length med p
        ((items.zip (f items)).filterMap
          (fun q => if q.2 = none then some q.1 else none)) hwfp
      obtain ⟨rep, p2, hrep, hreplen⟩ := hrec
      rcases merge_branch_some items (f items) rep hflen (by rw [hreplen]) with
        ⟨out, ho, hl⟩
      refine ⟨out, Chain.fnc (setList cache
        ((items.zip (f items)).filterMap
          (fun q => if q.2 = none then some q.1 else none)) rep) (some f) (some p2), ?_, hl⟩
      simp only [chainGet]
      rw [if_neg hn]
      simp only [hrep]
      rw [ho]
  | Chain.store st none, items, h => by
    rcases storeGetList_some med st items h with ⟨res, hres, hlen⟩
    refine ⟨res, Chain.store st none, ?_, hlen⟩
    simp only [chainGet]
    rw [hres]
  | Chain.store st (some p), items, h => by
    have hwfp : WFChain p := h.2
    rcases storeGetList_some med st items h.1 with ⟨res, hres, hlen⟩
    by_cases hn : ((items.zip res).filterMap
        (fun q => if q.2 = none then some q.1 else none)).length = 0
    · refine ⟨res, Chain.store st (some p), ?_, hlen⟩
      simp only [chainGet, hres]
      rw [if_pos hn]
    · have hrec := chainGet_some_length med p
        ((items.zip res).filterMap
          (fun q => if q.2 = none then some q.1 else none)) hwfp
      obtain ⟨rep, p2, hrep, hreplen⟩ := hrec
      rcases merge_branch_some items res rep hlen (by rw [hreplen]) with ⟨out, ho, hl⟩
      refine ⟨out, Chain.store (storeAddNew st
        ((items.zip res).filterMap
          (fun q => if q.2 = none then some q.1 else none)) rep).1 (some p2), ?_, hl⟩
      simp only [chainGet, hres]
      rw [if_neg hn]
      simp only [hrep]
      rw [ho]
  | Chain.expandMulti none, _, h => h.elim
  | Chain.expandMulti (some p), items, h => by
    by_cases hlen : items.length = 0
    · refine ⟨[], Chain.expandMulti (some p), ?_, by simp [hlen]⟩
      simp only [chainGet]
      rw [if_pos hlen]
    · rcases chainGet_some_length med p items.dedup h with ⟨rep, p2, hrep, hreplen⟩
      have hall : ∀ it ∈ items, (dictFind (items.dedup.zip rep) it).isSome := by
        intro it hit
        exact dictFind_zip_isSome items.dedup rep it (List.mem_dedup.mpr hit)
          (by rw [hreplen])
      rcases mapM_isSome_length (fun it => dictFind (items.dedup.zip rep) it) items hall
        with ⟨out, ho, hl⟩
      refine ⟨out, Chain.expandMulti (some p2), ?_, hl⟩
      simp only [chainGet]
      rw [if_neg hlen]
      simp only [hrep]
      rw [ho]

/-- C4: for every well-formed chain (compute functions honour the batch
length contract, store buffers hold no Absent entry, the
duplicate-collapsing adapter has a fallback) and every request batch of
length N, get succeeds and returns a response of exactly length N aligned
with the request slots; in particular a batch with duplicate keys such as
[k0, k1, k0] over a duplicate-collapsing link gets a length-3 response in
request order with equal answers at the duplicated key. -/
theorem C4_chainGet_length_preserved (med : Nat → V) (c : Chain) (items : List Key)
    (h : WFChain c) :
    (∃ out c2, chainGet med c items = some (out, c2) ∧ out.length = items.length) ∧
    chainGet med (Chain.expandMulti (some (Chain.dict [(⟨0, []⟩, 5)] none)))
      [⟨0, []⟩, ⟨1, []⟩, ⟨0, []⟩] =
      some ([some 5, none, some 5],
        Chain.expandMulti (some (Chain.dict [(⟨0, []⟩, 5)] none))) :=
  ⟨chainGet_some_length med c items h, rfl⟩

/-- C4 witness: the statement applied to a concrete three-link chain (a
duplicate-collapsing adapter over a cache over a compute link) and a batch
holding a duplicate key. -/
theorem C4_witness :
    (∃ out c2, chainGet (fun _ => 0)
      (Chain.expandMulti (some (Chain.dict [(⟨0, []⟩, 5)]
        (some (Chain.fnc [] none none)))))
      [⟨0, []⟩, ⟨1, []⟩, ⟨0, []⟩] = some (out, c2) ∧
      out.length = ([(⟨0, []⟩ : Key), ⟨1, []⟩, ⟨0, []⟩]).length) ∧
    chainGet (fun _ => 0) (Chain.expandMulti (some (Chain.dict [(⟨0, []⟩, 5)] none)))
      [⟨0, []⟩, ⟨1, []⟩, ⟨0, []⟩] =
      some ([some 5, none, some 5],
        Chain.expandMulti (some (Chain.dict [(⟨0, []⟩, 5)] none))) :=
  C4_chainGet_length_preserved (fun _ => 0)
    (Chain.expandMulti (some (Chain.dict [(⟨0, []⟩, 5)]
      (some (Chain.fnc [] none none)))))
    [⟨0, []⟩, ⟨1, []⟩, ⟨0, []⟩] trivial
